import Mathlib

/-!
Shallow embedding of `topy_simple.py`: an operator-contract execution
engine tracking Betti numbers of a graph carrier.  Python dictionaries are
modelled as association lists (first-match lookup, in-place update);
machine integers are `Int`; exceptions become explicit error values.
-/

set_option synthInstance.maxSize 512
set_option maxRecDepth 8192

namespace Topy

instance {ε α : Type} [DecidableEq ε] [DecidableEq α] : DecidableEq (Except ε α) := fun a b =>
  match a, b with
  | .ok x, .ok y =>
      if h : x = y then .isTrue (by rw [h]) else .isFalse (by simp [h])
  | .error x, .error y =>
      if h : x = y then .isTrue (by rw [h]) else .isFalse (by simp [h])
  | .ok _, .error _ => .isFalse (by simp)
  | .error _, .ok _ => .isFalse (by simp)

/-- Association-list model of a Python dict: lookup of the first matching key. -/
def aget {α β : Type} [DecidableEq α] : List (α × β) → α → Option β
  | [], _ => none
  | (k', v) :: rest, k => if k' = k then some v else aget rest k

/-- `d.get(k, dflt)` of a Python dict. -/
def agetD {α β : Type} [DecidableEq α] (d : List (α × β)) (k : α) (dflt : β) : β :=
  (aget d k).getD dflt

/-- `d[k] = v` of a Python dict: update the first matching key in place, else append. -/
def aset {α β : Type} [DecidableEq α] : List (α × β) → α → β → List (α × β)
  | [], k, v => [(k, v)]
  | (k', v') :: rest, k, v =>
      if k' = k then (k, v) :: rest else (k', v') :: aset rest k v

/-- The inner `betti` mapping: label (β0, β1, β2) to integer count. -/
abbrev BDict := List (String × Int)

/-- A deltas mapping: group name to label-to-delta mapping. -/
abbrev Deltas := List (String × BDict)

/-- Two-level dict lookup `deltas[g][k]`, `none` when either key is missing. -/
def dget2 (ds : Deltas) (g k : String) : Option Int :=
  match aget ds g with
  | some kv => aget kv k
  | none => none

/-- Python dict equality `==` between two betti mappings: same keys, same values. -/
def bettiEq (a b : BDict) : Bool :=
  a.all (fun kv => decide (aget b kv.1 = aget a kv.1)) &&
  b.all (fun kv => decide (aget a kv.1 = aget b kv.1))

/-- The default betti mapping of `Invariants.__init__`: a single point. -/
def defaultBetti : BDict := [("β0", 1), ("β1", 0), ("β2", 0)]

/-- `Invariants`: named invariant groups; only the `betti` group is wired up. -/
structure Invariants where
  betti : BDict
deriving DecidableEq, Repr

/-- `Invariants.__init__(betti)`: `self.betti = betti or {"β0": 1, "β1": 0, "β2": 0}`;
both `None` and the (falsy) empty dict select the default. -/
def Invariants.init (betti? : Option BDict) : Invariants :=
  ⟨match betti? with
   | some b => if b.isEmpty then defaultBetti else b
   | none => defaultBetti⟩

/-- Inner loop body of `apply_deltas`: `out.betti[k] = out.betti.get(k, 0) + dv`. -/
def bumpLabel (b : BDict) (kv : String × Int) : BDict :=
  aset b kv.1 (agetD b kv.1 0 + kv.2)

/-- Outer loop body of `apply_deltas`: only the `"betti"` group is interpreted. -/
def applyGroup (b : BDict) (gkv : String × BDict) : BDict :=
  if gkv.1 = "betti" then gkv.2.foldl bumpLabel b else b

/-- `Invariants.apply_deltas`: returns a new `Invariants`; for each group equal to
`"betti"` every label's value is incremented by its delta (missing labels start
at 0); other groups are skipped. -/
def Invariants.apply_deltas (i : Invariants) (deltas : Deltas) : Invariants :=
  ⟨deltas.foldl applyGroup i.betti⟩

/-- The graph carrier's structure: a node list and an undirected edge list
(no duplicate nodes or edges once built through `addNode` / `addEdge`). -/
structure Graph where
  nodes : List Nat
  edges : List (Nat × Nat)
deriving DecidableEq, Repr

def Graph.hasNode (g : Graph) (u : Nat) : Bool := u ∈ g.nodes

def Graph.hasEdge (g : Graph) (u v : Nat) : Bool :=
  (u, v) ∈ g.edges || (v, u) ∈ g.edges

/-- `G.add_node(u)`. -/
def Graph.addNode (g : Graph) (u : Nat) : Graph :=
  if g.hasNode u then g else { g with nodes := g.nodes ++ [u] }

/-- `G.add_edge(u, v)`: inserts missing endpoints, then the edge if absent. -/
def Graph.addEdge (g : Graph) (u v : Nat) : Graph :=
  let g := (g.addNode u).addNode v
  if g.hasEdge u v then g else { g with edges := g.edges ++ [(u, v)] }

/-- One round of closure: add to `s` every node sharing an edge with a node of `s`. -/
def expandOnce (g : Graph) (s : List Nat) : List Nat :=
  g.edges.foldl
    (fun s e =>
      let s := if e.1 ∈ s ∧ ¬ e.2 ∈ s then s ++ [e.2] else s
      if e.2 ∈ s ∧ ¬ e.1 ∈ s then s ++ [e.1] else s)
    s

/-- The connected component of `u`: closure of `{u}` under `expandOnce`
(`g.nodes.length` rounds always reach the fixed point). -/
def compOf (g : Graph) (u : Nat) : List Nat :=
  (expandOnce g)^[g.nodes.length] [u]

/-- `nx.connected_components`: scan the nodes in order, opening a new component
at each node not yet covered. -/
def connectedComponents (g : Graph) : List (List Nat) :=
  g.nodes.foldl
    (fun comps u => if comps.any (fun c => u ∈ c) then comps else comps ++ [compOf g u])
    []

/-- `nx.number_connected_components`. -/
def numberConnectedComponents (g : Graph) : Nat :=
  (connectedComponents g).length

/-- `GraphCarrier.measure_invariants`: β0 = c, β1 = m − n + c, β2 = 0. -/
def measure_invariants (g : Graph) : Invariants :=
  ⟨[("β0", (numberConnectedComponents g : Int)),
    ("β1", (g.edges.length : Int) - (g.nodes.length : Int) + (numberConnectedComponents g : Int)),
    ("β2", 0)]⟩

/-- A node-to-component-index mapping, as a dict. -/
abbrev NDict := List (Nat × Nat)

/-- The `comp_index` dict of `I_AddCycleRedundancy.algebraic_effect`:
`for i, comp in enumerate(connected_components): for v in comp: comp_index[v] = i`. -/
def comp_index (g : Graph) : NDict :=
  (connectedComponents g).enum.foldl
    (fun d ic => ic.2.foldl (fun d v => aset d v ic.1) d) []

/-- Loop body of `algebraic_effect` over the running `(δβ1, δβ0)` pair:
both endpoints in the same component bump δβ1, both present in different
components decrement δβ0, and an absent endpoint leaves the pair unchanged. -/
def scoreEdge (ci : NDict) (p : Int × Int) (e : Nat × Nat) : Int × Int :=
  match aget ci e.1, aget ci e.2 with
  | some cu, some cv => if cu = cv then (p.1 + 1, p.2) else (p.1, p.2 - 1)
  | _, _ => p

/-- `I_AddCycleRedundancy.algebraic_effect`: score every candidate edge against
the component partition of the current carrier, computed once up front. -/
def addCycle_effect (_current : Invariants) (g : Graph) (edges : List (Nat × Nat)) : Deltas :=
  let ci := comp_index g
  let p := edges.foldl (scoreEdge ci) (0, 0)
  [("betti", [("β1", p.1), ("β0", p.2)])]

/-- The β1 contribution of one candidate edge against a fixed partition:
+1 when both endpoints are present and share a component index, else 0. -/
def edgeContribB1 (ci : NDict) (e : Nat × Nat) : Int :=
  match aget ci e.1, aget ci e.2 with
  | some cu, some cv => if cu = cv then 1 else 0
  | _, _ => 0

/-- The β0 contribution of one candidate edge against a fixed partition:
−1 when both endpoints are present with distinct component indices, else 0
(in particular an edge with an absent endpoint contributes nothing). -/
def edgeContribB0 (ci : NDict) (e : Nat × Nat) : Int :=
  match aget ci e.1, aget ci e.2 with
  | some cu, some cv => if cu = cv then 0 else -1
  | _, _ => 0

/-- Modelled from the spec: the deltas of AddCycleRedundancy as the sums of
independent per-edge contributions, each scored against the single
component partition taken at the start of the call. -/
def addCycle_effect_snapshot (g : Graph) (edges : List (Nat × Nat)) : Deltas :=
  let ci := comp_index g
  [("betti", [("β1", (edges.map (edgeContribB1 ci)).sum),
              ("β0", (edges.map (edgeContribB0 ci)).sum)])]

/-- Modelled from the spec: the incremental alternative the spec contrasts the
snapshot shortcut with — after scoring each candidate edge, apply it to the
graph and re-derive the partition for the next edge.  Returns `(δβ1, δβ0)`. -/
def addCycle_effect_incremental (g : Graph) (edges : List (Nat × Nat)) : Int × Int :=
  (edges.foldl
    (fun (pg : (Int × Int) × Graph) e =>
      (scoreEdge (comp_index pg.2) pg.1 e, pg.2.addEdge e.1 e.2))
    ((0, 0), g)).1

/-- `I_AddCycleRedundancy.verify_contract`.  Dict subscripts that can raise
`KeyError` are modelled as `Option` lookups propagating `none`;
`constraints.get("max_betti1", float("inf"))` becomes: absent key accepts. -/
def addCycle_verify (current : Invariants) (deltas : Deltas)
    (constraints : List (String × Int)) : Option Bool :=
  match dget2 deltas "betti" "β1" with
  | none => none
  | some d1 =>
      if d1 < 0 then some false
      else
        match aget current.betti "β1" with
        | none => none
        | some c1 =>
            some (match aget constraints "max_betti1" with
                  | none => true
                  | some m => decide (c1 + d1 ≤ m))

/-- `I_AddCycleRedundancy.realize_geometrically`: insert missing endpoints of
every candidate edge, then add all the edges. -/
def addCycle_realize (edges : List (Nat × Nat)) (g : Graph) : Graph :=
  let g := edges.foldl (fun g e => (g.addNode e.1).addNode e.2) g
  edges.foldl (fun g e => g.addEdge e.1 e.2) g

/-- The two operator variants of the repository. -/
inductive Op where
  | addCycle (edges : List (Nat × Nat))
  | calcH1
deriving DecidableEq, Repr

def Op.opName : Op → String
  | .addCycle _ => "I_AddCycleRedundancy"
  | .calcH1 => "I_CalculateH1Graph"

def Op.requiresGeometricRealization : Op → Bool
  | .addCycle _ => true
  | .calcH1 => false

def Op.forceMeasure : Op → Bool
  | .addCycle _ => true
  | .calcH1 => true

/-- The operator's parameter record: `{"edges": ...}` for AddCycleRedundancy,
`{}` for CalculateH1Graph. -/
def Op.params : Op → Option (List (Nat × Nat))
  | .addCycle es => some es
  | .calcH1 => none

def Op.effect : Op → Invariants → Graph → Deltas
  | .addCycle es, cur, g => addCycle_effect cur g es
  | .calcH1, _, _ => []

def Op.verify : Op → Invariants → Deltas → List (String × Int) → Option Bool
  | .addCycle _, cur, ds, cons => addCycle_verify cur ds cons
  | .calcH1, _, _, _ => some true

def Op.realize : Op → Graph → Graph
  | .addCycle es, g => addCycle_realize es g
  | .calcH1, g => g

/-- A log record: operator name, parameter record, computed deltas. -/
abbrev LogEntry := String × Option (List (Nat × Nat)) × Deltas

/-- The kernel's mutable state: one carrier, one invariants snapshot, the log. -/
structure KernelState where
  carrier : Graph
  invariants : Invariants
  log : List LogEntry
deriving DecidableEq, Repr

/-- How a step can abort: a missing dict key (`KeyError`), or
`TopyContractViolation` carrying the operator's name and its deltas. -/
inductive StepErr where
  | keyError
  | violation (name : String) (deltas : Deltas)
deriving DecidableEq, Repr

/-- One iteration of the loop body of `TopyKernel.execute`:
effect, verify, apply deltas, realize, force-measure reconcile, log. -/
def execStep (constraints : List (String × Int)) (st : KernelState) (op : Op) :
    Except StepErr KernelState :=
  match op.verify st.invariants (op.effect st.invariants st.carrier) constraints with
  | none => .error .keyError
  | some false => .error (.violation op.opName (op.effect st.invariants st.carrier))
  | some true =>
      let inv1 := st.invariants.apply_deltas (op.effect st.invariants st.carrier)
      let car1 := if op.requiresGeometricRealization then op.realize st.carrier else st.carrier
      let inv2 :=
        if op.forceMeasure then
          if bettiEq (measure_invariants car1).betti inv1.betti then inv1
          else measure_invariants car1
        else inv1
      .ok { carrier := car1, invariants := inv2,
            log := st.log ++ [(op.opName, op.params, op.effect st.invariants st.carrier)] }

/-- `TopyKernel.execute`: run the operators in order; on an abort, return the
state exactly as committed by the strictly earlier operators, with the error. -/
def execute (constraints : List (String × Int)) (st : KernelState) :
    List Op → KernelState × Option StepErr
  | [] => (st, none)
  | op :: rest =>
      match execStep constraints st op with
      | .ok st' => execute constraints st' rest
      | .error e => (st, some e)

/-- `TopyKernel.__init__`: measure the carrier, start with an empty log. -/
def TopyKernel.init (g : Graph) : KernelState :=
  { carrier := g, invariants := measure_invariants g, log := [] }

/-! ### Basic lemmas about the effect fold -/

lemma scoreEdge_eq (ci : NDict) (p : Int × Int) (e : Nat × Nat) :
    scoreEdge ci p e = (p.1 + edgeContribB1 ci e, p.2 + edgeContribB0 ci e) := by
  unfold scoreEdge edgeContribB1 edgeContribB0
  rcases aget ci e.1 with _ | cu <;> rcases aget ci e.2 with _ | cv <;> simp
  by_cases h : cu = cv
  · simp [h]
  · simp [h]
    ring

lemma foldl_scoreEdge (ci : NDict) : ∀ (edges : List (Nat × Nat)) (p : Int × Int),
    edges.foldl (scoreEdge ci) p =
      (p.1 + (edges.map (edgeContribB1 ci)).sum,
       p.2 + (edges.map (edgeContribB0 ci)).sum) := by
  intro edges
  induction edges with
  | nil => intro p; simp
  | cons e es ih =>
      intro p
      simp only [List.foldl_cons, List.map_cons, List.sum_cons, ih, scoreEdge_eq]
      rw [Prod.mk.injEq]
      constructor <;> ring

lemma addCycle_effect_eq_snapshot (cur : Invariants) (g : Graph)
    (edges : List (Nat × Nat)) :
    addCycle_effect cur g edges = addCycle_effect_snapshot g edges := by
  unfold addCycle_effect addCycle_effect_snapshot
  simp only [foldl_scoreEdge]
  simp

lemma edgeContribB1_nonneg (ci : NDict) (e : Nat × Nat) : 0 ≤ edgeContribB1 ci e := by
  unfold edgeContribB1
  rcases aget ci e.1 with _ | cu <;> rcases aget ci e.2 with _ | cv <;> simp
  by_cases h : cu = cv <;> simp [h]

lemma sum_contribB1_nonneg (ci : NDict) (edges : List (Nat × Nat)) :
    0 ≤ (edges.map (edgeContribB1 ci)).sum := by
  apply List.sum_nonneg
  intro x hx
  rcases List.mem_map.mp hx with ⟨e, _, rfl⟩
  exact edgeContribB1_nonneg ci e

/-! ### Association-list (dict) lemmas -/

lemma aget_aset_self {α β : Type} [DecidableEq α] (d : List (α × β)) (k : α) (v : β) :
    aget (aset d k v) k = some v := by
  induction d with
  | nil => simp [aset, aget]
  | cons hd tl ih =>
      by_cases h : hd.1 = k
      · simp [aset, aget, h]
      · simp [aset, aget, h, ih]

lemma aget_aset_ne {α β : Type} [DecidableEq α] (d : List (α × β)) (k k' : α) (v : β)
    (h : k ≠ k') : aget (aset d k v) k' = aget d k' := by
  induction d with
  | nil => simp [aset, aget, h]
  | cons hd tl ih =>
      by_cases h1 : hd.1 = k
      · simp [aset, aget, h1, h]
      · by_cases h2 : hd.1 = k'
        · simp [aset, aget, h1, h2, Ne.symm h]
        · simp [aset, aget, h1, h2, ih]

lemma aget_eq_none_of_not_mem {α β : Type} [DecidableEq α] (d : List (α × β)) (k : α)
    (h : k ∉ d.map Prod.fst) : aget d k = none := by
  induction d with
  | nil => rfl
  | cons hd tl ih =>
      simp only [List.map_cons, List.mem_cons] at h
      push_neg at h
      have hne : ¬ hd.1 = k := fun hh => h.1 (Eq.symm hh)
      simp [aget, hne, ih h.2]

lemma mem_of_aget {α β : Type} [DecidableEq α] (d : List (α × β)) (k : α) (v : β)
    (h : aget d k = some v) : (k, v) ∈ d := by
  induction d with
  | nil => simp [aget] at h
  | cons hd tl ih =>
      rcases hd with ⟨a, b⟩
      by_cases h1 : a = k
      · simp only [aget, if_pos h1, Option.some.injEq] at h
        subst h1
        subst h
        exact List.mem_cons_self _ _
      · simp only [aget, if_neg h1] at h
        exact List.mem_cons_of_mem _ (ih h)

/-! ### Lemmas about `apply_deltas` -/

lemma aget_foldl_bumpLabel : ∀ (kv : BDict) (b : BDict) (l : String),
    (kv.map Prod.fst).Nodup →
    aget (kv.foldl bumpLabel b) l =
      match aget kv l with
      | some dv => some (agetD b l 0 + dv)
      | none => aget b l := by
  intro kv
  induction kv with
  | nil => intro b l _; rfl
  | cons hd tl ih =>
      intro b l hnd
      simp only [List.map_cons, List.nodup_cons] at hnd
      obtain ⟨hk, hnd⟩ := hnd
      rw [List.foldl_cons, ih _ l hnd]
      by_cases h : hd.1 = l
      · subst h
        rw [aget_eq_none_of_not_mem tl hd.1 hk]
        simp only [bumpLabel, aget_aset_self]
        simp [aget]
      · have hb : aget (bumpLabel b hd) l = aget b l := aget_aset_ne _ _ _ _ h
        have hd' : agetD (bumpLabel b hd) l 0 = agetD b l 0 := by
          unfold agetD
          rw [hb]
        rcases htl : aget tl l with _ | dv
        · simp [aget, h, htl, hb]
        · simp [aget, h, htl, hd']

lemma foldl_applyGroup_skip : ∀ (ds : Deltas) (b : BDict),
    (∀ gkv ∈ ds, gkv.1 ≠ "betti") → ds.foldl applyGroup b = b := by
  intro ds
  induction ds with
  | nil => intro b _; rfl
  | cons hd tl ih =>
      intro b h
      rw [List.foldl_cons]
      have h1 : applyGroup b hd = b := by
        unfold applyGroup
        rw [if_neg (h hd (List.mem_cons_self _ _))]
      rw [h1]
      exact ih b (fun g hg => h g (List.mem_cons_of_mem _ hg))

lemma foldl_applyGroup_eq : ∀ (ds : Deltas) (b : BDict),
    (ds.map Prod.fst).Nodup →
    ds.foldl applyGroup b =
      match aget ds "betti" with
      | some kv => kv.foldl bumpLabel b
      | none => b := by
  intro ds
  induction ds with
  | nil => intro b _; rfl
  | cons hd tl ih =>
      intro b hnd
      rcases hd with ⟨g, kv⟩
      simp only [List.map_cons, List.nodup_cons] at hnd
      obtain ⟨hk, hnd⟩ := hnd
      rw [List.foldl_cons]
      by_cases h : g = "betti"
      · subst h
        have hskip : ∀ gkv ∈ tl, gkv.1 ≠ "betti" := by
          intro x hx heq
          exact hk (heq ▸ List.mem_map_of_mem Prod.fst hx)
        have hb : applyGroup b ("betti", kv) = kv.foldl bumpLabel b := by
          simp [applyGroup]
        rw [hb, foldl_applyGroup_skip tl _ hskip]
        simp [aget]
      · have hb : applyGroup b (g, kv) = b := by
          simp [applyGroup, h]
        rw [hb, ih b hnd]
        simp [aget, h]

/-! ### Lemmas about `bettiEq` and the kernel loop -/

lemma bettiEq_refl (a : BDict) : bettiEq a a = true := by
  unfold bettiEq
  simp [List.all_eq_true]

lemma bettiEq_aget (a b : BDict) (h : bettiEq a b = true) (k : String) (v : Int)
    (hk : aget a k = some v) : aget b k = some v := by
  unfold bettiEq at h
  rw [Bool.and_eq_true, List.all_eq_true, List.all_eq_true] at h
  have hm := mem_of_aget a k v hk
  have := of_decide_eq_true (h.1 (k, v) hm)
  rw [this, hk]

lemma apply_deltas_nil (i : Invariants) : i.apply_deltas [] = i := rfl

lemma Op.forceMeasure_true (op : Op) : op.forceMeasure = true := by
  cases op <;> rfl

lemma execute_nil (cons : List (String × Int)) (st : KernelState) :
    execute cons st [] = (st, none) := rfl

lemma execute_cons (cons : List (String × Int)) (st : KernelState) (op : Op)
    (rest : List Op) :
    execute cons st (op :: rest) =
      match execStep cons st op with
      | .ok st' => execute cons st' rest
      | .error e => (st, some e) := rfl

lemma execStep_ok_measured (cons : List (String × Int)) (st : KernelState) (op : Op)
    (st' : KernelState) (h : execStep cons st op = .ok st') :
    bettiEq (measure_invariants st'.carrier).betti st'.invariants.betti = true := by
  unfold execStep at h
  rcases hv : op.verify st.invariants (op.effect st.invariants st.carrier) cons with _ | b
  · rw [hv] at h
    simp at h
  · rw [hv] at h
    cases b
    · simp at h
    · dsimp only at h
      rw [Op.forceMeasure_true, if_pos rfl, Except.ok.injEq] at h
      subst h
      dsimp only
      by_cases hb :
          bettiEq
            (measure_invariants
              (if op.requiresGeometricRealization = true then op.realize st.carrier
               else st.carrier)).betti
            ((st.invariants.apply_deltas (op.effect st.invariants st.carrier)).betti) = true
      · rw [if_pos hb]
        exact hb
      · rw [if_neg hb]
        exact bettiEq_refl _

lemma execute_ok_measured (cons : List (String × Int)) :
    ∀ (ops : List Op) (st st' : KernelState),
    bettiEq (measure_invariants st.carrier).betti st.invariants.betti = true →
    execute cons st ops = (st', none) →
    bettiEq (measure_invariants st'.carrier).betti st'.invariants.betti = true := by
  intro ops
  induction ops with
  | nil =>
      intro st st' hP h
      simp only [execute, Prod.mk.injEq] at h
      rw [← h.1]
      exact hP
  | cons op rest ih =>
      intro st st' hP h
      rw [execute_cons] at h
      rcases hs : execStep cons st op with e | st1
      · rw [hs] at h
        simp at h
      · rw [hs] at h
        dsimp only at h
        exact ih st1 st' (execStep_ok_measured cons st op st1 hs) h

lemma execute_append (cons : List (String × Int)) :
    ∀ (pre : List Op) (st stPre : KernelState) (rest : List Op),
    execute cons st pre = (stPre, none) →
    execute cons st (pre ++ rest) = execute cons stPre rest := by
  intro pre
  induction pre with
  | nil =>
      intro st stPre rest h
      rw [execute_nil, Prod.mk.injEq] at h
      rw [List.nil_append, h.1]
  | cons op pre' ih =>
      intro st stPre rest h
      rw [execute_cons] at h
      rcases hs : execStep cons st op with e | st1
      · rw [hs] at h
        simp at h
      · rw [hs] at h
        dsimp only at h
        rw [List.cons_append, execute_cons, hs]
        dsimp only
        exact ih st1 stPre rest h

lemma execStep_violation_shape (cons : List (String × Int)) (st : KernelState) (op : Op)
    (n : String) (d : Deltas) (h : execStep cons st op = .error (.violation n d)) :
    n = op.opName ∧ d = op.effect st.invariants st.carrier := by
  unfold execStep at h
  rcases hv : op.verify st.invariants (op.effect st.invariants st.carrier) cons with _ | b
  · rw [hv] at h
    simp at h
  · rw [hv] at h
    cases b
    · simp only [Except.error.injEq, StepErr.violation.injEq] at h
      exact ⟨h.1.symm, h.2.symm⟩
    · simp at h

lemma execStep_ok_log (cons : List (String × Int)) (st : KernelState) (op : Op)
    (st' : KernelState) (h : execStep cons st op = .ok st') :
    st'.log.length = st.log.length + 1 := by
  unfold execStep at h
  rcases hv : op.verify st.invariants (op.effect st.invariants st.carrier) cons with _ | b
  · rw [hv] at h
    simp at h
  · rw [hv] at h
    cases b
    · simp at h
    · rw [Except.ok.injEq] at h
      subst h
      simp

lemma execute_none_log (cons : List (String × Int)) :
    ∀ (ops : List Op) (st st' : KernelState),
    execute cons st ops = (st', none) →
    st'.log.length = st.log.length + ops.length := by
  intro ops
  induction ops with
  | nil =>
      intro st st' h
      rw [execute_nil, Prod.mk.injEq] at h
      rw [← h.1]
      simp
  | cons op rest ih =>
      intro st st' h
      rw [execute_cons] at h
      rcases hs : execStep cons st op with e | st1
      · rw [hs] at h
        simp at h
      · rw [hs] at h
        dsimp only at h
        have h1 := execStep_ok_log cons st op st1 hs
        have h2 := ih st1 st' h
        rw [h2, h1]
        simp only [List.length_cons]
        ring

/-! ### Concrete fixtures for witnesses -/

/-- The 4-node path graph 0–1–2–3 of the demo. -/
def path4 : Graph := ⟨[0, 1, 2, 3], [(0, 1), (1, 2), (2, 3)]⟩

/-! ### Claims -/

/-- Claim C1, as stated, is false at a concrete input: with `edges = [(5, 6)]`
on a carrier containing neither node 5 nor node 6, `algebraic_effect` returns
a β0 delta of 0, not −1 — an edge with an absent endpoint is skipped by the
loop and contributes to neither delta. -/
theorem claim_C1_counterexample :
    dget2 (addCycle_effect (Invariants.init none) ⟨[], []⟩ [(5, 6)]) "betti" "β0" = some 0 ∧
    ¬ dget2 (addCycle_effect (Invariants.init none) ⟨[], []⟩ [(5, 6)]) "betti" "β0" =
        some (-1) := by
  decide

/-- Claim C1, amended: for every carrier and edge list, each candidate edge with
both endpoints in the same component contributes +1 to the β1 delta; both
endpoints present but in different components contributes −1 to the β0 delta;
an edge with either endpoint absent contributes nothing; the returned deltas
are the sums of these per-edge contributions.  In particular `edges = [(5, 6)]`
on a carrier containing neither node yields β0 delta 0 and β1 delta 0. -/
theorem claim_C1_amended (cur : Invariants) (g : Graph) (edges : List (Nat × Nat)) :
    addCycle_effect cur g edges =
      [("betti", [("β1", (edges.map (edgeContribB1 (comp_index g))).sum),
                  ("β0", (edges.map (edgeContribB0 (comp_index g))).sum)])] ∧
    addCycle_effect cur ⟨[], []⟩ [(5, 6)] = [("betti", [("β1", 0), ("β0", 0)])] := by
  constructor
  · rw [addCycle_effect_eq_snapshot]
    rfl
  · rfl

/-- Claim C2: `algebraic_effect` scores every candidate edge against the single
component partition computed at the start of the call (it equals the
spec-modelled snapshot form); on three isolated nodes, the chain edges
(1,2),(2,3) are each scored against the original partition giving β0 delta −2,
the duplicated pair (1,2),(1,2) likewise gives (β1, β0) = (0, −2), while the
incrementally updated alternative would give (1, −1) on the same input. -/
theorem claim_C2 (cur : Invariants) (g : Graph) (edges : List (Nat × Nat)) :
    addCycle_effect cur g edges = addCycle_effect_snapshot g edges ∧
    addCycle_effect cur ⟨[1, 2, 3], []⟩ [(1, 2), (2, 3)] =
      [("betti", [("β1", 0), ("β0", -2)])] ∧
    addCycle_effect cur ⟨[1, 2, 3], []⟩ [(1, 2), (1, 2)] =
      [("betti", [("β1", 0), ("β0", -2)])] ∧
    addCycle_effect_incremental ⟨[1, 2, 3], []⟩ [(1, 2), (1, 2)] = (1, -1) := by
  exact ⟨addCycle_effect_eq_snapshot cur g edges, rfl, rfl, by decide⟩

/-- Claim C3: `verify_contract` returns false whenever the deltas' β1 entry is
negative; otherwise it returns true iff `current.β1 + delta.β1 ≤
constraints["max_betti1"]`, and an absent `"max_betti1"` key accepts any
non-negative β1 delta. -/
theorem claim_C3 (cur : Invariants) (deltas : Deltas) (cons : List (String × Int))
    (bd : BDict) (d1 c1 : Int)
    (hb : aget deltas "betti" = some bd) (h1 : aget bd "β1" = some d1)
    (hc : aget cur.betti "β1" = some c1) :
    (d1 < 0 → addCycle_verify cur deltas cons = some false) ∧
    (0 ≤ d1 → ∀ m : Int, aget cons "max_betti1" = some m →
        (addCycle_verify cur deltas cons = some true ↔ c1 + d1 ≤ m)) ∧
    (0 ≤ d1 → aget cons "max_betti1" = none →
        addCycle_verify cur deltas cons = some true) := by
  unfold addCycle_verify dget2
  rw [hb]
  dsimp only
  rw [h1]
  dsimp only
  rw [hc]
  refine ⟨fun hneg => ?_, fun hge m hm => ?_, fun hge hm => ?_⟩
  · rw [if_pos hneg]
  · rw [if_neg (not_lt.mpr hge), hm]
    simp
  · rw [if_neg (not_lt.mpr hge), hm]

/-- Witness for C3 at a concrete input: a −1 β1 delta is rejected. -/
theorem claim_C3_witness :
    addCycle_verify (Invariants.init none) [("betti", [("β1", -1)])] [] = some false :=
  (claim_C3 (Invariants.init none) [("betti", [("β1", -1)])] [] [("β1", -1)] (-1) 0
    (by decide) (by decide) (by decide)).1 (by decide)

/-- Claim C7: `measure_invariants` returns β0 = component count,
β1 = edges − nodes + components, and β2 = 0, for every graph carrier. -/
theorem claim_C7 (g : Graph) :
    aget (measure_invariants g).betti "β0" = some (numberConnectedComponents g : Int) ∧
    aget (measure_invariants g).betti "β1" =
      some ((g.edges.length : Int) - (g.nodes.length : Int) +
            (numberConnectedComponents g : Int)) ∧
    aget (measure_invariants g).betti "β2" = some 0 := by
  refine ⟨?_, ?_, ?_⟩ <;> simp [measure_invariants, aget]

/-- Claim C10: constructing `Invariants` with an explicitly empty betti mapping
yields the same state as constructing it with no argument — the default
`{β0: 1, β1: 0, β2: 0}` — so an empty mapping is unrepresentable through the
constructor. -/
theorem claim_C10 :
    Invariants.init (some []) = Invariants.init none ∧
    (Invariants.init (some [])).betti = [("β0", 1), ("β1", 0), ("β2", 0)] :=
  ⟨rfl, rfl⟩

/-- Claim C4: when `verify_contract` fails, `execute` terminates with a
contract violation carrying the failing operator's name and its computed
deltas, and the kernel state is exactly as committed by the strictly earlier
operators: the carrier, invariants and log of the state after the prefix,
the failing operator having appended nothing (the log holds one entry per
committed prefix operator). -/
theorem claim_C4 (cons : List (String × Int)) (st stPre : KernelState)
    (pre post : List Op) (op : Op) (n : String) (d : Deltas)
    (hpre : execute cons st pre = (stPre, none))
    (hfail : execStep cons stPre op = .error (.violation n d)) :
    execute cons st (pre ++ op :: post) = (stPre, some (.violation n d)) ∧
    n = op.opName ∧ d = op.effect stPre.invariants stPre.carrier ∧
    stPre.log.length = st.log.length + pre.length := by
  obtain ⟨hn, hd⟩ := execStep_violation_shape cons stPre op n d hfail
  refine ⟨?_, hn, hd, execute_none_log cons pre st stPre hpre⟩
  rw [execute_append cons pre st stPre (op :: post) hpre, execute_cons, hfail]

/-- Witness for C4: a three-operator sequence on the 4-path where only the
third crosses `max_betti1 = 1` fails exactly at the third operator, leaving
the state of the two-operator prefix and a log of exactly two entries. -/
theorem claim_C4_witness :
    execute [("max_betti1", 1)] (TopyKernel.init path4)
        ([Op.addCycle [(0, 3)], Op.addCycle [(5, 6)]] ++ Op.addCycle [(1, 2)] :: []) =
      ((execute [("max_betti1", 1)] (TopyKernel.init path4)
          [Op.addCycle [(0, 3)], Op.addCycle [(5, 6)]]).1,
       some (.violation "I_AddCycleRedundancy" [("betti", [("β1", 1), ("β0", 0)])])) ∧
    (execute [("max_betti1", 1)] (TopyKernel.init path4)
        [Op.addCycle [(0, 3)], Op.addCycle [(5, 6)]]).1.log.length =
      (TopyKernel.init path4).log.length + 2 := by
  have h := claim_C4 [("max_betti1", 1)] (TopyKernel.init path4)
      (execute [("max_betti1", 1)] (TopyKernel.init path4)
        [Op.addCycle [(0, 3)], Op.addCycle [(5, 6)]]).1
      [Op.addCycle [(0, 3)], Op.addCycle [(5, 6)]] [] (Op.addCycle [(1, 2)])
      "I_AddCycleRedundancy" [("betti", [("β1", 1), ("β0", 0)])]
      (by decide) (by decide)
  exact ⟨h.1, h.2.2.2⟩

/-- Claim C5: every run of `execute` from a freshly measured kernel that
completes without a contract violation ends with invariants equal to the
direct measurement of the final carrier: β0 is its connected-component count
and β1 is edges − nodes + components. -/
theorem claim_C5 (g : Graph) (cons : List (String × Int)) (ops : List Op)
    (st' : KernelState)
    (h : execute cons (TopyKernel.init g) ops = (st', none)) :
    aget st'.invariants.betti "β0" = some (numberConnectedComponents st'.carrier : Int) ∧
    aget st'.invariants.betti "β1" =
      some ((st'.carrier.edges.length : Int) - (st'.carrier.nodes.length : Int) +
            (numberConnectedComponents st'.carrier : Int)) := by
  have hP : bettiEq (measure_invariants (TopyKernel.init g).carrier).betti
      (TopyKernel.init g).invariants.betti = true := bettiEq_refl _
  have hP' := execute_ok_measured cons ops (TopyKernel.init g) st' hP h
  constructor
  · exact bettiEq_aget _ _ hP' "β0" _ (by simp [measure_invariants, aget])
  · exact bettiEq_aget _ _ hP' "β1" _ (by simp [measure_invariants, aget])

/-- Witness for C5: the demo run (4-path, add chord (0,3), then a
CalculateH1Graph checkpoint, under `max_betti1 = 3`) ends with β0 = 1. -/
theorem claim_C5_witness :
    aget ((execute [("max_betti1", 3)] (TopyKernel.init path4)
            [Op.addCycle [(0, 3)], Op.calcH1]).1).invariants.betti "β0" = some 1 := by
  have h := claim_C5 path4 [("max_betti1", 3)] [Op.addCycle [(0, 3)], Op.calcH1]
      (execute [("max_betti1", 3)] (TopyKernel.init path4)
        [Op.addCycle [(0, 3)], Op.calcH1]).1 (by decide)
  exact h.1.trans (by decide)

/-- Claim C6: `apply_deltas` returns a new `Invariants` in which, for the
`"betti"` group only, each label's value is the receiver's value (0 when the
label is missing) plus its delta; groups other than `"betti"` are silently
ignored, and with no `"betti"` group the result equals the receiver.
(The receiver itself is unchanged by construction in this pure embedding.)
The nodup hypotheses state the key uniqueness every Python dict guarantees. -/
theorem claim_C6 (i : Invariants) (ds : Deltas)
    (hg : (ds.map Prod.fst).Nodup)
    (hkv : ∀ gkv ∈ ds, (gkv.2.map Prod.fst).Nodup) :
    (∀ l : String,
      aget (i.apply_deltas ds).betti l =
        match aget ds "betti" with
        | some kv =>
            match aget kv l with
            | some dv => some (agetD i.betti l 0 + dv)
            | none => aget i.betti l
        | none => aget i.betti l) ∧
    (aget ds "betti" = none → i.apply_deltas ds = i) := by
  have hmain := foldl_applyGroup_eq ds i.betti hg
  constructor
  · intro l
    show aget (ds.foldl applyGroup i.betti) l = _
    rw [hmain]
    rcases hb : aget ds "betti" with _ | kv
    · rfl
    · have hkvn : (kv.map Prod.fst).Nodup :=
        hkv ("betti", kv) (mem_of_aget _ _ _ hb)
      exact aget_foldl_bumpLabel kv i.betti l hkvn
  · intro hb
    show (⟨ds.foldl applyGroup i.betti⟩ : Invariants) = i
    rw [hmain, hb]

/-- Witness for C6 at a concrete input: a delta of +2 on β1 together with an
unknown label and a non-betti group yields β1 = 0 + 2. -/
theorem claim_C6_witness :
    aget ((Invariants.init none).apply_deltas
        [("betti", [("β1", 2), ("β9", 5)]), ("other", [("x", 9)])]).betti "β1" =
      some 2 := by
  rw [(claim_C6 (Invariants.init none)
      [("betti", [("β1", 2), ("β9", 5)]), ("other", [("x", 9)])]
      (by decide) (by decide)).1 "β1"]
  decide

/-- Claim C8: CalculateH1Graph's `algebraic_effect` is an empty deltas mapping,
its `verify_contract` always accepts, its `realize_geometrically` is the
identity, and a step executed when the current invariants already equal the
carrier's direct measurement leaves carrier and invariants unchanged,
appending only a log entry (the step is idempotent on invariant values). -/
theorem claim_C8 (st : KernelState) (cons : List (String × Int))
    (h : bettiEq (measure_invariants st.carrier).betti st.invariants.betti = true) :
    (∀ (cur : Invariants) (g : Graph), Op.calcH1.effect cur g = []) ∧
    (∀ (cur : Invariants) (d : Deltas) (c : List (String × Int)),
        Op.calcH1.verify cur d c = some true) ∧
    (∀ g : Graph, Op.calcH1.realize g = g) ∧
    execStep cons st Op.calcH1 =
      .ok { carrier := st.carrier, invariants := st.invariants,
            log := st.log ++ [("I_CalculateH1Graph", none, [])] } := by
  refine ⟨fun _ _ => rfl, fun _ _ _ => rfl, fun _ => rfl, ?_⟩
  unfold execStep
  dsimp only [Op.verify, Op.effect, Op.requiresGeometricRealization, Op.forceMeasure,
    Op.realize, Op.params, Op.opName]
  rw [apply_deltas_nil]
  simp only [Bool.false_eq_true, if_false, if_true, h]

/-- Witness for C8: the step on a freshly measured kernel over the 4-path. -/
theorem claim_C8_witness :
    execStep [] (TopyKernel.init path4) Op.calcH1 =
      .ok { carrier := path4, invariants := measure_invariants path4,
            log := [("I_CalculateH1Graph", none, [])] } :=
  (claim_C8 (TopyKernel.init path4) [] (bettiEq_refl _)).2.2.2

/-- Claim C9: for every carrier and edge list the β1 delta produced by
`algebraic_effect` is ≥ 0, so on deltas actually produced by it the
negative-β1 rejection branch of `verify_contract` never fires and the
operator is rejected only by the `max_betti1` bound. -/
theorem claim_C9 (cur : Invariants) (g : Graph) (edges : List (Nat × Nat))
    (cons : List (String × Int)) (c1 : Int)
    (hc : aget cur.betti "β1" = some c1) :
    dget2 (addCycle_effect cur g edges) "betti" "β1" =
      some ((edges.map (edgeContribB1 (comp_index g))).sum) ∧
    0 ≤ (edges.map (edgeContribB1 (comp_index g))).sum ∧
    addCycle_verify cur (addCycle_effect cur g edges) cons =
      some (match aget cons "max_betti1" with
            | none => true
            | some m =>
                decide (c1 + (edges.map (edgeContribB1 (comp_index g))).sum ≤ m)) := by
  have hnn := sum_contribB1_nonneg (comp_index g) edges
  have h1 : dget2 (addCycle_effect cur g edges) "betti" "β1" =
      some ((edges.map (edgeContribB1 (comp_index g))).sum) := by
    rw [addCycle_effect_eq_snapshot]
    simp [addCycle_effect_snapshot, dget2, aget]
  refine ⟨h1, hnn, ?_⟩
  unfold addCycle_verify
  rw [h1]
  dsimp only
  rw [if_neg (not_lt.mpr hnn), hc]

/-- Witness for C9 at a concrete input: the empty edge list on an empty
carrier yields β1 delta 0 and an accepted, unbounded contract. -/
theorem claim_C9_witness :
    dget2 (addCycle_effect (Invariants.init none) ⟨[], []⟩ []) "betti" "β1" = some 0 ∧
    addCycle_verify (Invariants.init none)
        (addCycle_effect (Invariants.init none) ⟨[], []⟩ []) [] = some true := by
  have h := claim_C9 (Invariants.init none) ⟨[], []⟩ [] [] 0 (by decide)
  exact ⟨h.1, h.2.2⟩

end Topy
